import Mathlib

/-!
# Dining philosophers with a host (philo.go)

A shallow embedding of `philo.go`: the table set-up (`setUpTable`), the
admission policy (`allowToEat`), the body of the host loop (`host`), the
philosopher loop (`Philosopher.eat`) and the program as a whole (the five
philosopher goroutines and the host goroutine, interleaved statement by
statement), followed by the properties proved about them.

Conventions of the embedding.
* Go `int` values that are used as indices are `Nat`; an index that is out of
  range makes the Go program stop with a run-time error, which is `none` here.
* A pointer to a `Chopstick` is the position of the chopstick in `chops`
  (the order of the `new(Chopstick)` allocations); a channel is the number of
  the `make(chan ...)` call that created it.
* `reflect.Select` over receive cases followed by one default case takes the
  readiness of every case and a number that stands for its pseudo-random
  choice among the ready cases.
* The channels are unbuffered: a send and the matching receive happen together,
  and a goroutine that stands at a channel operation stays there until the
  other side takes part. `Lock()` on a locked chopstick does not return.
-/

namespace Philo

/-! ## Constants and types -/

/-- The constant `eatReq` (first `iota` value). -/
abbrev eatReq : Int := 0

/-- The constant `finishNotice` (second `iota` value). -/
abbrev finishNotice : Int := 1

/-- The constant `numPhilos`. -/
abbrev numPhilos : Nat := 5

/-- The constant `rounds`. -/
abbrev rounds : Nat := 3

/-- A value of type `*Chopstick`: the allocation index of the chopstick. -/
structure Chopstick where
  addr : Nat
  deriving DecidableEq, Repr

/-- The struct `Philosopher`; channels are identified by their allocation number. -/
structure Philosopher where
  number : Int
  start : Nat
  finish : Nat
  answer : Nat
  left : Chopstick
  right : Chopstick
  deriving DecidableEq, Repr

/-- The host's book, `[numPhilos]bool`. -/
abbrev Book := Fin numPhilos → Bool

/-- The zero value of the book (`var book [numPhilos]bool`). -/
def emptyBook : Book := fun _ => false

/-! ## allowToEat -/

/-- The function `allowToEat`: count the true entries with a loop, answer `count < 2`. -/
def allowToEat (book : Book) : Bool :=
  let count := (List.ofFn book).foldl (fun count b => if b then count + 1 else count) 0
  decide (count < 2)

/-- Number of entries of the book that are true (specification-level count). -/
def trueCount (book : Book) : Nat :=
  (Finset.univ.filter (fun i => book i = true)).card

/-! ## setUpTable -/

/-- The first loop of `setUpTable`: `chops[i] = new(Chopstick)`. -/
def makeChops : List Chopstick :=
  (List.range numPhilos).map (fun i => Chopstick.mk i)

/-- The function `setUpTable`; `none` would be an index out of range. -/
def setUpTable : Option (List Philosopher) :=
  let chops := makeChops
  (List.range numPhilos).mapM (fun i => do
    let l ← chops[i]?
    let r ← chops[(i + 4) % numPhilos]?
    pure
      { number := (i : Int) + 1
        start := 3 * i
        finish := 3 * i + 1
        answer := 3 * i + 2
        left := l
        right := r })

/-- Positions in the table of the philosophers that were given chopstick `c`. -/
def usersOf (philos : List Philosopher) (c : Chopstick) : List Nat :=
  (List.range philos.length).filter (fun i =>
    match philos[i]? with
    | some p => decide (p.left = c ∨ p.right = c)
    | none => false)

/-- The chopsticks of a philosopher. -/
def chopsOf (p : Philosopher) : List Chopstick := [p.left, p.right]

/-- The chopsticks that two philosophers have in common. -/
def sharedChops (p q : Philosopher) : List Chopstick :=
  (chopsOf p).filter (fun c => decide (c ∈ chopsOf q))


/-- Index of the left chopstick of philosopher `i` in the table of `setUpTable`. -/
def leftOf (i : Fin numPhilos) : Fin numPhilos := i

/-- Index of the right chopstick of philosopher `i` in the table of `setUpTable`. -/
def rightOf (i : Fin numPhilos) : Fin numPhilos :=
  ⟨(i.val + 4) % numPhilos, Nat.mod_lt _ (by decide)⟩

/-! ## The host loop -/

/-- The assignment `book[chosen] = v`; `none` when `chosen` is out of range. -/
def setBook (book : Book) (chosen : Nat) (v : Bool) : Option Book :=
  if h : chosen < numPhilos then some (Function.update book ⟨chosen, h⟩ v) else none

/-- The call `reflect.Select(cases)` where `cases` is one receive case per entry
of `ready` followed by a default case: some ready case is chosen (`pick` stands
for the pseudo-random choice) and `ok` is true, or no case is ready and the
default case, whose index is the number of receive cases, is chosen with `ok`
false. -/
def selectRecv (ready : List Bool) (pick : Nat) : Nat × Bool :=
  let idxs := (List.range ready.length).filter (fun i => ready.getD i false)
  match idxs[pick % idxs.length]? with
  | some i => (i, true)
  | none => (ready.length, false)

/-- What the host does, as seen from outside and on its book. -/
inductive HostEvent where
  | recvFinish (chosen : Nat)
  | recvStart (chosen : Nat)
  | write (chosen : Nat) (v : Bool)
  | sendAnswer (chosen : Nat) (ok : Bool)
  deriving DecidableEq, Repr

/-- The state the host loop works on: its book, and for every philosopher
whether a message is pending on `p.start` and on `p.finish` (the channels are
unbuffered, so a pending message is a philosopher blocked in the send). The
state is taken at the moment the host polls the finish channels. -/
structure HostState where
  book : Book
  startPending : Fin numPhilos → Bool
  finishPending : Fin numPhilos → Bool

/-- Receiving from the channel of philosopher `chosen` unblocks that sender. -/
def consume (pending : Fin numPhilos → Bool) (chosen : Nat) : Fin numPhilos → Bool :=
  fun j => if j.val = chosen then false else pending j

/-- The branch `if ok { book[chosen] = false; continue }` after the select on
the finish channels. -/
def onFinish (book : Book) (chosen : Nat) : Option (Book × List HostEvent) := do
  let book ← setBook book chosen false
  pure (book, [HostEvent.write chosen false])

/-- The branch `if ok { if allowToEat(book) {...} else {...} }` after the select
on the start channels. -/
def onStart (book : Book) (chosen : Nat) : Option (Book × List HostEvent) :=
  if allowToEat book then do
    let book ← setBook book chosen true
    pure (book, [HostEvent.write chosen true, HostEvent.sendAnswer chosen true])
  else
    pure (book, [HostEvent.sendAnswer chosen false])

/-- The pending messages once the philosophers in `late` have reached their
send as well. -/
def arrive (pending late : Fin numPhilos → Bool) : Fin numPhilos → Bool :=
  fun j => pending j || late j

/-- One iteration of the `for` loop of `host`. The two calls of
`reflect.Select` happen one after the other: the first polls the finish
channels of `s`; when it takes its default case, the second polls the start
channels as they are by then, that is with the philosophers of `lateStart`
also blocked in their eat request, while those of `lateFinish` have become
blocked in their finish notice without the host looking at the finish
channels again. -/
def hostIter (s : HostState) (pickF pickS : Nat)
    (lateStart lateFinish : Fin numPhilos → Bool) : Option (HostState × List HostEvent) :=
  let (chosen, ok) := selectRecv (List.ofFn s.finishPending) pickF
  if ok then do
    let (book, evs) ← onFinish s.book chosen
    pure ({ s with book := book, finishPending := consume s.finishPending chosen },
      HostEvent.recvFinish chosen :: evs)
  else
    let startNow := arrive s.startPending lateStart
    let finishNow := arrive s.finishPending lateFinish
    let (chosen, ok) := selectRecv (List.ofFn startNow) pickS
    if ok then do
      let (book, evs) ← onStart s.book chosen
      pure ({ book := book, startPending := consume startNow chosen,
              finishPending := finishNow },
        HostEvent.recvStart chosen :: evs)
    else
      pure ({ s with startPending := startNow, finishPending := finishNow }, [])

/-- A message consumed by the host: a finish notice or an eat request of an agent. -/
inductive HostMsg where
  | finish (i : Fin numPhilos)
  | start (i : Fin numPhilos)
  deriving DecidableEq, Repr

/-- The effect on the book of consuming one message. -/
def hostStep (book : Book) : HostMsg → Option (Book × List HostEvent)
  | HostMsg.finish i => onFinish book i.val
  | HostMsg.start i => onStart book i.val

/-- The book after the host has consumed a sequence of messages, with what it did. -/
def hostRun (book : Book) : List HostMsg → Option (Book × List HostEvent)
  | [] => some (book, [])
  | m :: ms => do
    let (book1, evs1) ← hostStep book m
    let (book2, evs2) ← hostRun book1 ms
    pure (book2, evs1 ++ evs2)

/-! ## Philosopher.eat -/

/-- What a philosopher does, in program order. -/
inductive PhiloEvent where
  | sendStart (ch : Nat) (msg : Int)
  | recvAnswer (ch : Nat) (ok : Bool)
  | lock (c : Chopstick)
  | printStart (number : Int)
  | printFinish (number : Int)
  | unlock (c : Chopstick)
  | sendFinish (ch : Nat) (msg : Int)
  | wgDone
  deriving DecidableEq, Repr

/-- Result of running a philosopher against a sequence of answers: what it did,
the answers it did not consume, and whether it returned (it does not return
when it is left blocked on `<-p.answer`). -/
structure EatResult where
  trace : List PhiloEvent
  rest : List Bool
  returned : Bool
  deriving DecidableEq, Repr

/-- Put events in front of a result. -/
def EatResult.after (evs : List PhiloEvent) (r : EatResult) : EatResult :=
  { r with trace := evs ++ r.trace }

/-- The events of one pass through the inner loop when the answer is true. -/
def eatGranted (p : Philosopher) : List PhiloEvent :=
  [PhiloEvent.sendStart p.start eatReq, PhiloEvent.recvAnswer p.answer true,
   PhiloEvent.lock p.right, PhiloEvent.lock p.left,
   PhiloEvent.printStart p.number, PhiloEvent.printFinish p.number,
   PhiloEvent.unlock p.left, PhiloEvent.unlock p.right,
   PhiloEvent.sendFinish p.finish finishNotice]

/-- The events of one pass through the inner loop when the answer is false. -/
def eatDenied (p : Philosopher) : List PhiloEvent :=
  [PhiloEvent.sendStart p.start eatReq, PhiloEvent.recvAnswer p.answer false]

/-- The events of the passes through the inner loop for a list of answers. -/
def passes (p : Philosopher) : List Bool → List PhiloEvent
  | [] => []
  | ok :: answers => (if ok then eatGranted p else eatDenied p) ++ passes p answers

/-- The loops of `Philosopher.eat` from round counter `i` on; the list holds the
values that `<-p.answer` will deliver. -/
def eatLoop (p : Philosopher) : Nat → List Bool → EatResult
  | i, [] =>
    if i < rounds then ⟨[PhiloEvent.sendStart p.start eatReq], [], false⟩
    else ⟨[PhiloEvent.wgDone], [], true⟩
  | i, ok :: answers =>
    if i < rounds then
      if !ok then (eatLoop p i answers).after (eatDenied p)
      else (eatLoop p (i + 1) answers).after (eatGranted p)
    else ⟨[PhiloEvent.wgDone], ok :: answers, true⟩

/-- The method `Philosopher.eat`. -/
def eat (p : Philosopher) (answers : List Bool) : EatResult :=
  eatLoop p 0 answers

/-- Number of critical actions (meals) in a trace. -/
def meals (tr : List PhiloEvent) : Nat :=
  tr.countP (fun e => match e with | PhiloEvent.printStart _ => true | _ => false)

/-- Number of eat requests in a trace. -/
def requests (tr : List PhiloEvent) : Nat :=
  tr.countP (fun e => match e with | PhiloEvent.sendStart _ _ => true | _ => false)

/-- Number of answers received in a trace. -/
def answersTaken (tr : List PhiloEvent) : Nat :=
  tr.countP (fun e => match e with | PhiloEvent.recvAnswer _ _ => true | _ => false)

/-- Number of finish notices in a trace. -/
def notices (tr : List PhiloEvent) : Nat :=
  tr.countP (fun e => match e with | PhiloEvent.sendFinish _ _ => true | _ => false)

/-- Number of termination signals in a trace. -/
def dones (tr : List PhiloEvent) : Nat :=
  tr.countP (fun e => match e with | PhiloEvent.wgDone => true | _ => false)

/-! ## The whole program: five philosophers and the host, interleaved -/

/-- Where a philosopher goroutine stands in `Philosopher.eat`. -/
inductive PhiloPc where
  /-- At the test `i < rounds` of the outer loop. -/
  | loopTest
  /-- At `p.start <- eatReq`: blocked until the host receives. -/
  | sendStart
  /-- At `ok := <-p.answer`: blocked until the host sends. -/
  | recvAnswer
  /-- At `p.right.Lock()`. -/
  | lockRight
  /-- At `p.left.Lock()`. -/
  | lockLeft
  /-- At the two `fmt.Println` calls. -/
  | dine
  /-- At `p.left.Unlock()`. -/
  | unlockLeft
  /-- At `p.right.Unlock()`. -/
  | unlockRight
  /-- At `p.finish <- finishNotice`: blocked until the host receives. -/
  | sendFinish
  /-- At `break` and `i++`. -/
  | endRound
  /-- After `wg.Done()`. -/
  | done
  deriving DecidableEq, Repr

/-- Where the host goroutine stands in the loop of `host`. -/
inductive HostPc where
  /-- At `reflect.Select(finishCases)`. -/
  | selectFinish
  /-- At `book[chosen] = false`. -/
  | clearBook (chosen : Nat)
  /-- At `reflect.Select(startCases)`. -/
  | selectStart
  /-- At `if allowToEat(book) { book[chosen] = true`. -/
  | policy (chosen : Nat)
  /-- At `philos[chosen].answer <- ok`: blocked until the philosopher receives. -/
  | answer (chosen : Nat) (ok : Bool)
  deriving DecidableEq, Repr

/-- State of the running program. A chopstick is unlocked (`none`) or locked;
for a locked chopstick the philosopher whose `Lock()` succeeded is recorded.
`crashed` is set by an index out of range. -/
structure Sys where
  pc : Fin numPhilos → PhiloPc
  round : Fin numPhilos → Nat
  locked : Fin numPhilos → Option (Fin numPhilos)
  hpc : HostPc
  book : Book
  crashed : Bool

/-- The state after `main` has started all goroutines: every philosopher is at
the start of its outer loop with `i = 0`, no chopstick is locked, the host is
at the start of its loop and its book is empty. -/
def initSys : Sys :=
  { pc := fun _ => PhiloPc.loopTest
    round := fun _ => 0
    locked := fun _ => none
    hpc := HostPc.selectFinish
    book := emptyBook
    crashed := false }

/-- The philosopher whose channel was chosen by a select moves on. -/
def unblock (pc : Fin numPhilos → PhiloPc) (chosen : Nat) (next : PhiloPc) :
    Fin numPhilos → PhiloPc :=
  fun j => if j.val = chosen then next else pc j

/-- One step of philosopher `i`; the state is unchanged when the philosopher
cannot move (it is blocked on a channel or on a locked chopstick, or has
returned). -/
def philoStep (s : Sys) (i : Fin numPhilos) : Sys :=
  match s.pc i with
  | PhiloPc.lockRight =>
    if s.locked (rightOf i) = none then
      { s with locked := Function.update s.locked (rightOf i) (some i),
               pc := Function.update s.pc i PhiloPc.lockLeft }
    else s
  | PhiloPc.lockLeft =>
    if s.locked (leftOf i) = none then
      { s with locked := Function.update s.locked (leftOf i) (some i),
               pc := Function.update s.pc i PhiloPc.dine }
    else s
  | PhiloPc.dine => { s with pc := Function.update s.pc i PhiloPc.unlockLeft }
  | PhiloPc.unlockLeft =>
    { s with locked := Function.update s.locked (leftOf i) none,
             pc := Function.update s.pc i PhiloPc.unlockRight }
  | PhiloPc.unlockRight =>
    { s with locked := Function.update s.locked (rightOf i) none,
             pc := Function.update s.pc i PhiloPc.sendFinish }
  | PhiloPc.endRound =>
    { s with round := Function.update s.round i (s.round i + 1),
             pc := Function.update s.pc i PhiloPc.loopTest }
  | PhiloPc.loopTest =>
    if s.round i < rounds then { s with pc := Function.update s.pc i PhiloPc.sendStart }
    else { s with pc := Function.update s.pc i PhiloPc.done }
  | PhiloPc.sendStart => s
  | PhiloPc.recvAnswer => s
  | PhiloPc.sendFinish => s
  | PhiloPc.done => s

/-- One step of the host; `pick` is the choice made by `reflect.Select`. -/
def hostMove (s : Sys) (pick : Nat) : Sys :=
  match s.hpc with
  | HostPc.selectFinish =>
    let (chosen, ok) :=
      selectRecv (List.ofFn (fun i => decide (s.pc i = PhiloPc.sendFinish))) pick
    if ok then
      { s with pc := unblock s.pc chosen PhiloPc.endRound, hpc := HostPc.clearBook chosen }
    else { s with hpc := HostPc.selectStart }
  | HostPc.clearBook chosen =>
    match setBook s.book chosen false with
    | some book => { s with book := book, hpc := HostPc.selectFinish }
    | none => { s with crashed := true }
  | HostPc.selectStart =>
    let (chosen, ok) :=
      selectRecv (List.ofFn (fun i => decide (s.pc i = PhiloPc.sendStart))) pick
    if ok then
      { s with pc := unblock s.pc chosen PhiloPc.recvAnswer, hpc := HostPc.policy chosen }
    else { s with hpc := HostPc.selectFinish }
  | HostPc.policy chosen =>
    if allowToEat s.book then
      match setBook s.book chosen true with
      | some book => { s with book := book, hpc := HostPc.answer chosen true }
      | none => { s with crashed := true }
    else { s with hpc := HostPc.answer chosen false }
  | HostPc.answer chosen ok =>
    if h : chosen < numPhilos then
      if s.pc ⟨chosen, h⟩ = PhiloPc.recvAnswer then
        { s with pc := Function.update s.pc ⟨chosen, h⟩
                   (if ok then PhiloPc.lockRight else PhiloPc.sendStart),
                 hpc := HostPc.selectFinish }
      else s
    else { s with crashed := true }

/-- A choice of the scheduler: let philosopher `i` run, or let the host run
(with the choice its select would make). -/
inductive Sched where
  | philo (i : Fin numPhilos)
  | host (pick : Nat)
  deriving DecidableEq, Repr

/-- One step of the program under a scheduler choice; a crashed program has stopped. -/
def sysStep (s : Sys) (a : Sched) : Sys :=
  if s.crashed then s
  else
    match a with
    | Sched.philo i => philoStep s i
    | Sched.host pick => hostMove s pick

/-- The state reached from `s` under a finite schedule. -/
def sysRun (s : Sys) (sched : List Sched) : Sys :=
  sched.foldl sysStep s

/-- Philosopher `i` holds chopstick `c`. -/
def holds (s : Sys) (i c : Fin numPhilos) : Prop :=
  s.locked c = some i

/-- Philosopher `i` is at the `Lock()` call on chopstick `c`, which is locked. -/
def blockedOn (s : Sys) (i c : Fin numPhilos) : Prop :=
  ((s.pc i = PhiloPc.lockRight ∧ c = rightOf i) ∨ (s.pc i = PhiloPc.lockLeft ∧ c = leftOf i))
  ∧ s.locked c ≠ none

/-- Philosopher `i` is blocked on a chopstick that philosopher `j` holds. -/
def waitsOn (s : Sys) (i j : Fin numPhilos) : Prop :=
  ∃ c, blockedOn s i c ∧ holds s j c

/-- Philosopher `i` holds exactly one of its chopsticks and is blocked on the other. -/
def holdsOneWaitsOther (s : Sys) (i : Fin numPhilos) : Prop :=
  (holds s i (leftOf i) ∧ ¬ holds s i (rightOf i) ∧ blockedOn s i (rightOf i))
  ∨ (holds s i (rightOf i) ∧ ¬ holds s i (leftOf i) ∧ blockedOn s i (leftOf i))

/-- The program counter is between the receipt of a true answer and the last unlock. -/
def atTable (pc : PhiloPc) : Bool :=
  match pc with
  | PhiloPc.lockRight | PhiloPc.lockLeft | PhiloPc.dine
  | PhiloPc.unlockLeft | PhiloPc.unlockRight => true
  | _ => false

/-- The program counter is one at which the right chopstick is held. -/
def hasRight (pc : PhiloPc) : Bool :=
  match pc with
  | PhiloPc.lockLeft | PhiloPc.dine | PhiloPc.unlockLeft | PhiloPc.unlockRight => true
  | _ => false

/-- The program counter is one at which the left chopstick is held. -/
def hasLeft (pc : PhiloPc) : Bool :=
  match pc with
  | PhiloPc.dine | PhiloPc.unlockLeft => true
  | _ => false


/-- The invariant of the running program. -/
structure Inv (s : Sys) : Prop where
  sound : s.crashed = false
  held : ∀ c i, s.locked c = some i →
    (c = rightOf i ∧ hasRight (s.pc i) = true) ∨ (c = leftOf i ∧ hasLeft (s.pc i) = true)
  booked : ∀ i, atTable (s.pc i) = true → s.book i = true
  cap : trueCount s.book ≤ 2
  clearing : ∀ c, s.hpc = HostPc.clearBook c →
    ∃ h : c < numPhilos, atTable (s.pc ⟨c, h⟩) = false
  deciding : ∀ c, s.hpc = HostPc.policy c → c < numPhilos
  answering : ∀ c ok, s.hpc = HostPc.answer c ok →
    ∃ h : c < numPhilos, (ok = true → s.book ⟨c, h⟩ = true)


/-! ## Properties -/

theorem allowToEat_eq (book : Book) : allowToEat book = decide (trueCount book < 2) := by
  revert book; decide


theorem setBook_fin (book : Book) (i : Fin numPhilos) (v : Bool) :
    setBook book i.val v = some (Function.update book i v) := by
  simp [setBook, i.isLt]

theorem trueCount_clear_le : ∀ (book : Book) (i : Fin numPhilos),
    trueCount (Function.update book i false) ≤ trueCount book := by
  decide

theorem trueCount_clear_of_true : ∀ (book : Book) (i : Fin numPhilos),
    book i = true → trueCount (Function.update book i false) + 1 = trueCount book := by
  decide

theorem trueCount_set_le : ∀ (book : Book) (i : Fin numPhilos),
    trueCount (Function.update book i true) ≤ trueCount book + 1 := by
  decide

theorem trueCount_emptyBook : trueCount emptyBook = 0 := by decide

theorem onFinish_fin (book : Book) (i : Fin numPhilos) :
    onFinish book i.val
      = some (Function.update book i false, [HostEvent.write i.val false]) := by
  simp [onFinish, setBook_fin]

theorem onStart_fin (book : Book) (i : Fin numPhilos) :
    onStart book i.val
      = if allowToEat book then
          some (Function.update book i true,
            [HostEvent.write i.val true, HostEvent.sendAnswer i.val true])
        else some (book, [HostEvent.sendAnswer i.val false]) := by
  unfold onStart
  split <;> simp [setBook_fin]

theorem hostStep_count (book : Book) (m : HostMsg) (h : trueCount book ≤ 2) :
    ∃ book1 evs, hostStep book m = some (book1, evs) ∧ trueCount book1 ≤ 2 := by
  cases m with
  | finish i =>
    refine ⟨_, _, onFinish_fin book i, ?_⟩
    exact le_trans (trueCount_clear_le book i) h
  | start i =>
    by_cases ha : allowToEat book = true
    · refine ⟨Function.update book i true,
        [HostEvent.write i.val true, HostEvent.sendAnswer i.val true], ?_, ?_⟩
      · simp [hostStep, onStart_fin, ha]
      · have hlt : trueCount book < 2 := by
          simpa [allowToEat_eq] using ha
        have := trueCount_set_le book i
        omega
    · refine ⟨book, [HostEvent.sendAnswer i.val false], ?_, h⟩
      simp [hostStep, onStart_fin, ha]

theorem hostRun_count (msgs : List HostMsg) :
    ∀ book : Book, trueCount book ≤ 2 →
      ∃ book1 evs, hostRun book msgs = some (book1, evs) ∧ trueCount book1 ≤ 2 := by
  induction msgs with
  | nil => intro book h; exact ⟨book, [], rfl, h⟩
  | cons m ms ih =>
    intro book h
    obtain ⟨b1, e1, h1, hc1⟩ := hostStep_count book m h
    obtain ⟨b2, e2, h2, hc2⟩ := ih b1 hc1
    exact ⟨b2, e1 ++ e2, by simp [hostRun, h1, h2], hc2⟩

/-- C1: every book the host reaches from the empty book by consuming any finite
sequence of finish notices and eat requests has at most 2 true entries (and the
host never indexes its book out of range on the way). -/
theorem host_admission_invariant (msgs : List HostMsg) :
    ∃ book evs, hostRun emptyBook msgs = some (book, evs) ∧ trueCount book ≤ 2 :=
  hostRun_count msgs emptyBook (by simp [trueCount_emptyBook])

theorem trueCount_comp_perm (book : Book) (σ : Equiv.Perm (Fin numPhilos)) :
    trueCount (book ∘ σ) = trueCount book := by
  unfold trueCount
  refine Finset.card_bij (fun i _ => σ i) ?_ ?_ ?_
  · intro i hi; simpa using hi
  · intro i _ j _ hij; exact σ.injective hij
  · intro j hj
    refine ⟨σ.symm j, ?_, by simp⟩
    simpa using hj

/-- C2: allowToEat answers true exactly when fewer than 2 entries of the book are
true; hence two books with the same number of true entries get the same answer,
and permuting the positions of a book does not change the answer. -/
theorem allowToEat_iff_count_lt_two (book : Book) :
    (allowToEat book = true ↔ trueCount book < 2)
    ∧ (∀ other : Book, trueCount other = trueCount book →
        allowToEat other = allowToEat book)
    ∧ (∀ σ : Equiv.Perm (Fin numPhilos), allowToEat (book ∘ σ) = allowToEat book) := by
  refine ⟨by simp [allowToEat_eq], ?_, ?_⟩
  · intro other h
    simp [allowToEat_eq, h]
  · intro σ
    simp [allowToEat_eq, trueCount_comp_perm]


theorem selectRecv_cases (ready : List Bool) (pick : Nat) :
    (selectRecv ready pick = (ready.length, false) ∧
      ∀ i, i < ready.length → ready.getD i false = false)
    ∨ (∃ j, j < ready.length ∧ ready.getD j false = true ∧
        selectRecv ready pick = (j, true)) := by
  unfold selectRecv
  generalize hidx : (List.range ready.length).filter (fun i => ready.getD i false) = idxs
  by_cases hnil : idxs = []
  · left
    subst hnil
    refine ⟨by simp, ?_⟩
    intro i hi
    have hmem : i ∈ List.range ready.length := List.mem_range.mpr hi
    have := List.filter_eq_nil_iff.mp hidx i hmem
    simpa using this
  · right
    have hpos : 0 < idxs.length := List.length_pos.mpr hnil
    have hlt : pick % idxs.length < idxs.length := Nat.mod_lt _ hpos
    have hmem0 : idxs[pick % idxs.length] ∈ idxs := List.getElem_mem _
    have hmem : idxs[pick % idxs.length]
        ∈ (List.range ready.length).filter (fun i => ready.getD i false) := by
      rw [hidx]; exact hmem0
    have hm := List.mem_filter.mp hmem
    refine ⟨idxs[pick % idxs.length], List.mem_range.mp hm.1, by simpa using hm.2, ?_⟩
    simp [List.getElem?_eq_getElem hlt]

theorem getD_ofFn (f : Fin numPhilos → Bool) (i : Fin numPhilos) :
    (List.ofFn f).getD i.val false = f i := by
  revert f i; decide

theorem selectRecv_ofFn (pending : Fin numPhilos → Bool) (pick : Nat) :
    (selectRecv (List.ofFn pending) pick = (numPhilos, false) ∧ ∀ i, pending i = false)
    ∨ (∃ j : Fin numPhilos, pending j = true ∧
        selectRecv (List.ofFn pending) pick = (j.val, true)) := by
  rcases selectRecv_cases (List.ofFn pending) pick with ⟨h, hall⟩ | ⟨j, hj, hr, h⟩
  · left
    refine ⟨by simpa using h, ?_⟩
    intro i
    have := hall i.val (by simp)
    rwa [getD_ofFn] at this
  · right
    have hj5 : j < numPhilos := by simpa using hj
    refine ⟨⟨j, hj5⟩, ?_, h⟩
    have := getD_ofFn pending ⟨j, hj5⟩
    simp only at this
    rw [← this]; exact hr

theorem consume_fin (pending : Fin numPhilos → Bool) (j : Fin numPhilos) :
    consume pending j.val = Function.update pending j false := by
  funext k
  by_cases h : k = j
  · subst h; simp [consume]
  · have : k.val ≠ j.val := fun e => h (Fin.ext e)
    simp [consume, this, Function.update, h]


theorem hostIter_of_finish (s : HostState) (pickF pickS : Nat)
    (lateStart lateFinish : Fin numPhilos → Bool) (j : Fin numPhilos)
    (h : selectRecv (List.ofFn s.finishPending) pickF = (j.val, true)) :
    hostIter s pickF pickS lateStart lateFinish = some
      ({ book := Function.update s.book j false,
         startPending := s.startPending,
         finishPending := Function.update s.finishPending j false },
       [HostEvent.recvFinish j.val, HostEvent.write j.val false]) := by
  simp only [hostIter, h]
  simp [onFinish_fin, consume_fin]

theorem hostIter_of_start (s : HostState) (pickF pickS : Nat)
    (lateStart lateFinish : Fin numPhilos → Bool) (j : Fin numPhilos)
    (hF : selectRecv (List.ofFn s.finishPending) pickF = (numPhilos, false))
    (hS : selectRecv (List.ofFn (arrive s.startPending lateStart)) pickS = (j.val, true)) :
    hostIter s pickF pickS lateStart lateFinish =
      if allowToEat s.book then
        some ({ book := Function.update s.book j true,
                startPending := Function.update (arrive s.startPending lateStart) j false,
                finishPending := arrive s.finishPending lateFinish },
          [HostEvent.recvStart j.val, HostEvent.write j.val true,
           HostEvent.sendAnswer j.val true])
      else
        some ({ book := s.book,
                startPending := Function.update (arrive s.startPending lateStart) j false,
                finishPending := arrive s.finishPending lateFinish },
          [HostEvent.recvStart j.val, HostEvent.sendAnswer j.val false]) := by
  simp only [hostIter, hF, hS]
  by_cases ha : allowToEat s.book = true <;>
    simp [onStart_fin, consume_fin, ha]

theorem hostIter_idle (s : HostState) (pickF pickS : Nat)
    (lateStart lateFinish : Fin numPhilos → Bool)
    (hF : selectRecv (List.ofFn s.finishPending) pickF = (numPhilos, false))
    (hS : selectRecv (List.ofFn (arrive s.startPending lateStart)) pickS
      = (numPhilos, false)) :
    hostIter s pickF pickS lateStart lateFinish
      = some ({ book := s.book,
                startPending := arrive s.startPending lateStart,
                finishPending := arrive s.finishPending lateFinish }, []) := by
  simp only [hostIter, hF, hS]
  simp

/-- C3 as stated fails: a finish notice can be pending while an eat request is
received and refused. In one iteration, with the book holding philosophers 0
and 1, no finish notice pending at the poll of the finish channels and the
finish notice of philosopher 0 arriving before the poll of the start channels,
the host receives the eat request of philosopher 2 and answers false, and the
notice of philosopher 0 is still pending with its book entry still true. The
whole program reaches this: under the schedule below philosopher 0 stands at
its finish notice when the host, past its poll of the finish channels,
receives the eat request of philosopher 2, refuses it and sends philosopher 2
back to its eat request, the notice of philosopher 0 still not received. -/
theorem start_consumed_while_finish_pending :
    (∃ s1 : HostState,
      hostIter
          { book := fun i => decide (i.val = 0 ∨ i.val = 1),
            startPending := fun i => decide (i.val = 2),
            finishPending := fun _ => false }
          0 0 (fun _ => false) (fun i => decide (i.val = 0))
        = some (s1, [HostEvent.recvStart 2, HostEvent.sendAnswer 2 false])
      ∧ s1.finishPending 0 = true ∧ s1.book 0 = true)
    ∧ ((sysRun initSys
          [Sched.philo 0, Sched.philo 1,
           Sched.host 0, Sched.host 0, Sched.host 0, Sched.host 0,
           Sched.host 0, Sched.host 0, Sched.host 0, Sched.host 0,
           Sched.philo 0, Sched.philo 0, Sched.philo 0, Sched.philo 0,
           Sched.philo 2, Sched.host 0, Sched.philo 0]).pc 0 = PhiloPc.sendFinish
      ∧ (sysRun initSys
          [Sched.philo 0, Sched.philo 1,
           Sched.host 0, Sched.host 0, Sched.host 0, Sched.host 0,
           Sched.host 0, Sched.host 0, Sched.host 0, Sched.host 0,
           Sched.philo 0, Sched.philo 0, Sched.philo 0, Sched.philo 0,
           Sched.philo 2, Sched.host 0, Sched.philo 0]).hpc = HostPc.selectStart
      ∧ (sysRun initSys
          [Sched.philo 0, Sched.philo 1,
           Sched.host 0, Sched.host 0, Sched.host 0, Sched.host 0,
           Sched.host 0, Sched.host 0, Sched.host 0, Sched.host 0,
           Sched.philo 0, Sched.philo 0, Sched.philo 0, Sched.philo 0,
           Sched.philo 2, Sched.host 0, Sched.philo 0,
           Sched.host 0]).hpc = HostPc.policy 2
      ∧ (sysRun initSys
          [Sched.philo 0, Sched.philo 1,
           Sched.host 0, Sched.host 0, Sched.host 0, Sched.host 0,
           Sched.host 0, Sched.host 0, Sched.host 0, Sched.host 0,
           Sched.philo 0, Sched.philo 0, Sched.philo 0, Sched.philo 0,
           Sched.philo 2, Sched.host 0, Sched.philo 0,
           Sched.host 0]).pc 0 = PhiloPc.sendFinish
      ∧ (sysRun initSys
          [Sched.philo 0, Sched.philo 1,
           Sched.host 0, Sched.host 0, Sched.host 0, Sched.host 0,
           Sched.host 0, Sched.host 0, Sched.host 0, Sched.host 0,
           Sched.philo 0, Sched.philo 0, Sched.philo 0, Sched.philo 0,
           Sched.philo 2, Sched.host 0, Sched.philo 0,
           Sched.host 0, Sched.host 0]).hpc = HostPc.answer 2 false
      ∧ (sysRun initSys
          [Sched.philo 0, Sched.philo 1,
           Sched.host 0, Sched.host 0, Sched.host 0, Sched.host 0,
           Sched.host 0, Sched.host 0, Sched.host 0, Sched.host 0,
           Sched.philo 0, Sched.philo 0, Sched.philo 0, Sched.philo 0,
           Sched.philo 2, Sched.host 0, Sched.philo 0,
           Sched.host 0, Sched.host 0, Sched.host 0]).pc 2 = PhiloPc.sendStart
      ∧ (sysRun initSys
          [Sched.philo 0, Sched.philo 1,
           Sched.host 0, Sched.host 0, Sched.host 0, Sched.host 0,
           Sched.host 0, Sched.host 0, Sched.host 0, Sched.host 0,
           Sched.philo 0, Sched.philo 0, Sched.philo 0, Sched.philo 0,
           Sched.philo 2, Sched.host 0, Sched.philo 0,
           Sched.host 0, Sched.host 0, Sched.host 0]).pc 0 = PhiloPc.sendFinish
      ∧ (sysRun initSys
          [Sched.philo 0, Sched.philo 1,
           Sched.host 0, Sched.host 0, Sched.host 0, Sched.host 0,
           Sched.host 0, Sched.host 0, Sched.host 0, Sched.host 0,
           Sched.philo 0, Sched.philo 0, Sched.philo 0, Sched.philo 0,
           Sched.philo 2, Sched.host 0, Sched.philo 0,
           Sched.host 0, Sched.host 0, Sched.host 0]).book 0 = true) := by
  refine ⟨⟨_, rfl, ?_, ?_⟩, ?_, ?_, ?_, ?_, ?_, ?_, ?_, ?_⟩ <;> decide

/-- C3, amended: completions have priority at the poll. When some finish
channel has a pending message at the moment the host polls the finish
channels, that iteration of the host loop receives a finish notice of an agent
whose notice is pending, clears that agent's book entry, leaves every pending
eat request pending and does nothing else (no eat request received, no answer
sent), whatever requests are pending or arrive. An iteration that receives an
eat request found no finish notice pending at its poll of the finish channels;
the finish notices that arrived after that poll are all still pending when the
iteration ends. -/
theorem completions_first_at_poll (s : HostState) (pickF pickS : Nat)
    (lateStart lateFinish : Fin numPhilos → Bool) :
    ((∃ i, s.finishPending i = true) →
      ∃ j : Fin numPhilos, s.finishPending j = true ∧
        hostIter s pickF pickS lateStart lateFinish = some
          ({ book := Function.update s.book j false,
             startPending := s.startPending,
             finishPending := Function.update s.finishPending j false },
           [HostEvent.recvFinish j.val, HostEvent.write j.val false]))
    ∧ (∀ s1 evs c, hostIter s pickF pickS lateStart lateFinish = some (s1, evs) →
        HostEvent.recvStart c ∈ evs →
        (∀ i, s.finishPending i = false) ∧ (∀ i, s1.finishPending i = lateFinish i)) := by
  rcases selectRecv_ofFn s.finishPending pickF with ⟨hF, hnone⟩ | ⟨j, hj, hF⟩
  · refine ⟨?_, ?_⟩
    · rintro ⟨i, hi⟩
      rw [hnone i] at hi
      exact absurd hi (by decide)
    · intro s1 evs c hrun hmem
      refine ⟨hnone, ?_⟩
      have hfin : arrive s.finishPending lateFinish = lateFinish := by
        funext i; simp [arrive, hnone i]
      rcases selectRecv_ofFn (arrive s.startPending lateStart) pickS with
        ⟨hS, _⟩ | ⟨k, _, hS⟩
      · rw [hostIter_idle s pickF pickS lateStart lateFinish hF hS] at hrun
        simp only [Option.some.injEq, Prod.mk.injEq] at hrun
        rw [← hrun.2] at hmem
        simp at hmem
      · rw [hostIter_of_start s pickF pickS lateStart lateFinish k hF hS] at hrun
        intro i
        by_cases ha : allowToEat s.book = true
        · simp only [ha, if_true, Option.some.injEq, Prod.mk.injEq] at hrun
          rw [← hrun.1, hfin]
        · simp only [ha, Bool.false_eq_true, if_false, Option.some.injEq,
            Prod.mk.injEq] at hrun
          rw [← hrun.1, hfin]
  · refine ⟨fun _ => ⟨j, hj, hostIter_of_finish s pickF pickS lateStart lateFinish j hF⟩, ?_⟩
    intro s1 evs c hrun hmem
    rw [hostIter_of_finish s pickF pickS lateStart lateFinish j hF] at hrun
    simp only [Option.some.injEq, Prod.mk.injEq] at hrun
    rw [← hrun.2] at hmem
    simp at hmem

theorem hostIter_answer (t : HostState) (pickF pickS : Nat)
    (lateStart lateFinish : Fin numPhilos → Bool) (t1 : HostState)
    (evs : List HostEvent) (c : Nat) (ok : Bool)
    (hrun : hostIter t pickF pickS lateStart lateFinish = some (t1, evs))
    (hmem : HostEvent.sendAnswer c ok ∈ evs) : ok = allowToEat t.book := by
  rcases selectRecv_ofFn t.finishPending pickF with ⟨hF, _⟩ | ⟨j, _, hF⟩
  · rcases selectRecv_ofFn (arrive t.startPending lateStart) pickS with
      ⟨hS, _⟩ | ⟨k, _, hS⟩
    · rw [hostIter_idle t pickF pickS lateStart lateFinish hF hS] at hrun
      simp only [Option.some.injEq, Prod.mk.injEq] at hrun
      rw [← hrun.2] at hmem
      simp at hmem
    · rw [hostIter_of_start t pickF pickS lateStart lateFinish k hF hS] at hrun
      by_cases ha : allowToEat t.book = true
      · simp only [ha, if_true, Option.some.injEq, Prod.mk.injEq] at hrun
        rw [← hrun.2] at hmem
        simp at hmem
        rw [ha]; exact hmem.2
      · simp only [ha, Bool.false_eq_true, if_false, Option.some.injEq,
          Prod.mk.injEq] at hrun
        rw [← hrun.2] at hmem
        simp at hmem
        simp at ha
        rw [ha]; exact hmem.2
  · rw [hostIter_of_finish t pickF pickS lateStart lateFinish j hF] at hrun
    simp only [Option.some.injEq, Prod.mk.injEq] at hrun
    rw [← hrun.2] at hmem
    simp at hmem

theorem hostIter_finish_book (s : HostState) (pickF pickS : Nat)
    (lateStart lateFinish : Fin numPhilos → Bool) (s1 : HostState)
    (evs : List HostEvent) (i : Fin numPhilos)
    (hrun : hostIter s pickF pickS lateStart lateFinish = some (s1, evs))
    (hmem : HostEvent.recvFinish i.val ∈ evs) :
    s1.book = Function.update s.book i false := by
  rcases selectRecv_ofFn s.finishPending pickF with ⟨hF, _⟩ | ⟨j, _, hF⟩
  · rcases selectRecv_ofFn (arrive s.startPending lateStart) pickS with
      ⟨hS, _⟩ | ⟨k, _, hS⟩
    · rw [hostIter_idle s pickF pickS lateStart lateFinish hF hS] at hrun
      simp only [Option.some.injEq, Prod.mk.injEq] at hrun
      rw [← hrun.2] at hmem
      simp at hmem
    · rw [hostIter_of_start s pickF pickS lateStart lateFinish k hF hS] at hrun
      by_cases ha : allowToEat s.book = true
      · simp only [ha, if_true, Option.some.injEq, Prod.mk.injEq] at hrun
        rw [← hrun.2] at hmem
        simp at hmem
      · simp only [ha, Bool.false_eq_true, if_false, Option.some.injEq,
          Prod.mk.injEq] at hrun
        rw [← hrun.2] at hmem
        simp at hmem
  · rw [hostIter_of_finish s pickF pickS lateStart lateFinish j hF] at hrun
    simp only [Option.some.injEq, Prod.mk.injEq] at hrun
    rw [← hrun.2] at hmem
    simp at hmem
    have hij : i = j := Fin.ext hmem
    rw [← hrun.1, hij]

/-- C4: completion bookkeeping. Consuming the finish notice of agent i never
fails and yields a book whose entry i is false and whose other entries are
unchanged; the number of true entries does not increase and drops by exactly
one when entry i was true. The host iteration that receives the notice leaves
this book in the host state, and an iteration that starts from this book
answers a request with allowToEat of this book. -/
theorem completion_bookkeeping (book : Book) (i : Fin numPhilos) :
    ∃ book1 : Book,
      onFinish book i.val = some (book1, [HostEvent.write i.val false])
      ∧ book1 i = false
      ∧ (∀ j, j ≠ i → book1 j = book j)
      ∧ trueCount book1 ≤ trueCount book
      ∧ (book i = true → trueCount book1 + 1 = trueCount book)
      ∧ (∀ (s : HostState) (pickF pickS : Nat)
          (lateStart lateFinish : Fin numPhilos → Bool)
          (s1 : HostState) (evs : List HostEvent),
          s.book = book → hostIter s pickF pickS lateStart lateFinish = some (s1, evs) →
          HostEvent.recvFinish i.val ∈ evs → s1.book = book1)
      ∧ (∀ (t : HostState) (pickF pickS : Nat)
          (lateStart lateFinish : Fin numPhilos → Bool)
          (t1 : HostState) (evs : List HostEvent) (c : Nat) (ok : Bool),
          t.book = book1 → hostIter t pickF pickS lateStart lateFinish = some (t1, evs) →
          HostEvent.sendAnswer c ok ∈ evs → ok = allowToEat book1) := by
  refine ⟨Function.update book i false, onFinish_fin book i, by simp, ?_,
    trueCount_clear_le book i, trueCount_clear_of_true book i, ?_, ?_⟩
  · intro j hj
    simp [Function.update, hj]
  · intro s pickF pickS lateStart lateFinish s1 evs hb hrun hmem
    rw [← hb]
    exact hostIter_finish_book s pickF pickS lateStart lateFinish s1 evs i hrun hmem
  · intro t pickF pickS lateStart lateFinish t1 evs c ok hb hrun hmem
    rw [← hb]
    exact hostIter_answer t pickF pickS lateStart lateFinish t1 evs c ok hrun hmem

/-- C5: effect of a request step. If allowToEat holds of the book, the host
writes true at entry i (every other entry unchanged) and answers true;
otherwise it answers false and leaves the book exactly as it was. In both
cases exactly one answer is sent, and it is true if and only if the host wrote
the book entry (and, when entry i was false before, if and only if entry i is
true afterwards). -/
theorem request_step_effect (book : Book) (i : Fin numPhilos) :
    (allowToEat book = true →
      onStart book i.val = some (Function.update book i true,
        [HostEvent.write i.val true, HostEvent.sendAnswer i.val true]))
    ∧ (allowToEat book = false →
      onStart book i.val = some (book, [HostEvent.sendAnswer i.val false]))
    ∧ (∃ (book1 : Book) (evs : List HostEvent) (ok : Bool),
        onStart book i.val = some (book1, evs)
        ∧ evs.filter (fun e => match e with
            | HostEvent.sendAnswer _ _ => true | _ => false)
          = [HostEvent.sendAnswer i.val ok]
        ∧ (ok = true ↔ HostEvent.write i.val true ∈ evs)
        ∧ (book i = false → (ok = true ↔ book1 i = true))) := by
  refine ⟨?_, ?_, ?_⟩
  · intro ha; simp [onStart_fin, ha]
  · intro ha; simp [onStart_fin, ha]
  · by_cases ha : allowToEat book = true
    · refine ⟨Function.update book i true,
        [HostEvent.write i.val true, HostEvent.sendAnswer i.val true], true,
        by simp [onStart_fin, ha], ?_⟩
      simp [ha]
    · refine ⟨book, [HostEvent.sendAnswer i.val false], false,
        by simp [onStart_fin, ha], ?_⟩
      simp at ha
      simp [ha]


/-- C7: ring topology of setUpTable. It returns exactly 5 philosophers, and the
philosopher at index i has number i+1, left chopstick chops[i] and right
chopstick chops[(i+4) mod 5], where chops are 5 distinct chopsticks. -/
theorem setUpTable_ring :
    ∃ philos : List Philosopher,
      setUpTable = some philos ∧ philos.length = 5
      ∧ makeChops.length = 5 ∧ makeChops.Nodup
      ∧ ∀ i : Fin numPhilos, ∃ p : Philosopher,
          philos[i.val]? = some p
          ∧ p.number = (i.val : Int) + 1
          ∧ makeChops[i.val]? = some p.left
          ∧ makeChops[(i.val + 4) % 5]? = some p.right
          ∧ makeChops[(leftOf i).val]? = some p.left
          ∧ makeChops[(rightOf i).val]? = some p.right := by
  refine ⟨_, rfl, by decide, by decide, by decide, ?_⟩
  decide


/-- C8: in the table of setUpTable every chopstick j is given to exactly two
philosophers, philosopher j (as its left chopstick) and philosopher (j+1) mod 5
(as its right chopstick), whose positions are next to each other on the ring;
the two chopsticks of a philosopher are different, and two different
philosophers have at most one chopstick in common. -/
theorem chopstick_sharing :
    ∃ philos : List Philosopher,
      setUpTable = some philos
      ∧ philos.Nodup
      ∧ (∀ j : Fin numPhilos,
          makeChops[j.val]? = some (Chopstick.mk j.val)
          ∧ (usersOf philos (Chopstick.mk j.val)).length = 2
          ∧ (usersOf philos (Chopstick.mk j.val)).Perm [j.val, (j.val + 1) % 5]
          ∧ (philos[j.val]?).map Philosopher.left = some (Chopstick.mk j.val)
          ∧ (philos[(j.val + 1) % 5]?).map Philosopher.right = some (Chopstick.mk j.val))
      ∧ (∀ p ∈ philos, p.left ≠ p.right)
      ∧ (∀ p ∈ philos, ∀ q ∈ philos, p ≠ q → (sharedChops p q).length ≤ 1) := by
  refine ⟨_, rfl, ?_, ?_, ?_, ?_⟩ <;> decide


theorem held_card_le (admitted : Finset (Fin numPhilos))
    (holds : Fin numPhilos → Fin numPhilos → Bool)
    (hadm : ∀ p c, holds p c = true → p ∈ admitted)
    (hown : ∀ p c, holds p c = true → c = leftOf p ∨ c = rightOf p) :
    (Finset.univ.filter (fun c => ∃ p, holds p c = true)).card ≤ admitted.card * 2 := by
  have hsub : Finset.univ.filter (fun c => ∃ p, holds p c = true)
      ⊆ admitted.biUnion (fun p => {leftOf p, rightOf p}) := by
    intro c hc
    obtain ⟨p, hp⟩ := (Finset.mem_filter.mp hc).2
    refine Finset.mem_biUnion.mpr ⟨p, hadm p c hp, ?_⟩
    rcases hown p c hp with h | h <;> simp [h]
  refine le_trans (Finset.card_le_card hsub) ?_
  refine Finset.card_biUnion_le_card_mul _ _ _ ?_
  intro p _
  exact Finset.card_le_two

/-- C9: under the admission cap some chopstick is free. If the book has at most
2 true entries, only philosophers whose book entry is true hold chopsticks, and
a philosopher holds only its own left chopstick (index i) or right chopstick
(index (i+4) mod 5), then at most 4 chopsticks are held and some chopstick
among the 5 is held by nobody. -/
theorem some_chopstick_free (book : Book) (holds : Fin numPhilos → Fin numPhilos → Bool)
    (hcap : trueCount book ≤ 2)
    (hadm : ∀ p c, holds p c = true → book p = true)
    (hown : ∀ p c, holds p c = true → c = leftOf p ∨ c = rightOf p) :
    (Finset.univ.filter (fun c => ∃ p, holds p c = true)).card ≤ 4
    ∧ ∃ c, ∀ p, holds p c = false := by
  have hcard : (Finset.univ.filter (fun c => ∃ p, holds p c = true)).card ≤ 4 := by
    have h := held_card_le (Finset.univ.filter (fun i => book i = true)) holds
      (fun p c hp => by simpa using hadm p c hp) hown
    unfold trueCount at hcap
    omega
  refine ⟨hcard, ?_⟩
  by_contra hno
  push_neg at hno
  have hall : Finset.univ.filter (fun c => ∃ p, holds p c = true) = Finset.univ := by
    apply Finset.filter_true_of_mem
    intro c _
    obtain ⟨p, hp⟩ := hno c
    exact ⟨p, by simpa using hp⟩
  rw [hall] at hcard
  simp at hcard
  exact absurd hcard (by decide)

/-- Witness for C9: philosophers 0 and 2 are admitted, philosopher 0 holds both
of its chopsticks (0 and 4) and philosopher 2 holds its right chopstick (1). -/
theorem some_chopstick_free_witness :
    (Finset.univ.filter (fun c : Fin numPhilos => ∃ p : Fin numPhilos,
        (fun p c => decide ((p.val = 0 ∧ (c.val = 0 ∨ c.val = 4)) ∨ (p.val = 2 ∧ c.val = 1)))
          p c = true)).card ≤ 4
    ∧ ∃ c : Fin numPhilos, ∀ p : Fin numPhilos,
        (fun p c => decide ((p.val = 0 ∧ (c.val = 0 ∨ c.val = 4)) ∨ (p.val = 2 ∧ c.val = 1)))
          p c = false :=
  some_chopstick_free (fun i => decide (i.val = 0 ∨ i.val = 2))
    (fun p c => decide ((p.val = 0 ∧ (c.val = 0 ∨ c.val = 4)) ∨ (p.val = 2 ∧ c.val = 1)))
    (by decide) (by decide) (by decide)


theorem eatLoop_done (p : Philosopher) (i : Nat) (answers : List Bool) (h : ¬ i < rounds) :
    eatLoop p i answers = ⟨[PhiloEvent.wgDone], answers, true⟩ := by
  cases answers <;> simp [eatLoop, h]

theorem eatLoop_denied (p : Philosopher) (i : Nat) (answers : List Bool) (h : i < rounds) :
    eatLoop p i (false :: answers) = (eatLoop p i answers).after (eatDenied p) := by
  simp [eatLoop, h]

theorem eatLoop_granted (p : Philosopher) (i : Nat) (answers : List Bool) (h : i < rounds) :
    eatLoop p i (true :: answers) = (eatLoop p (i + 1) answers).after (eatGranted p) := by
  simp [eatLoop, h]

theorem eatLoop_structure (p : Philosopher) (answers : List Bool) :
    ∀ i : Nat, i ≤ rounds → rounds - i ≤ answers.count true →
      ∃ consumed : List Bool,
        answers = consumed ++ (eatLoop p i answers).rest
        ∧ consumed.count true = rounds - i
        ∧ (eatLoop p i answers).returned = true
        ∧ (eatLoop p i answers).trace = passes p consumed ++ [PhiloEvent.wgDone] := by
  induction answers with
  | nil =>
    intro i hi h
    have : ¬ i < rounds := by simp at h; omega
    refine ⟨[], ?_⟩
    simp [eatLoop_done p i [] this, passes]
    omega
  | cons ok answers ih =>
    intro i hi h
    by_cases hlt : i < rounds
    · cases ok with
      | false =>
        obtain ⟨c, h1, h2, h3, h4⟩ := ih i hi (by simpa using h)
        refine ⟨false :: c, ?_⟩
        rw [eatLoop_denied p i answers hlt]
        refine ⟨?_, ?_, ?_, ?_⟩
        · simpa [EatResult.after] using h1
        · simpa using h2
        · simpa [EatResult.after] using h3
        · simp [EatResult.after, h4, passes]
      | true =>
        obtain ⟨c, h1, h2, h3, h4⟩ := ih (i + 1) hlt (by simp at h; omega)
        refine ⟨true :: c, ?_⟩
        rw [eatLoop_granted p i answers hlt]
        refine ⟨?_, ?_, ?_, ?_⟩
        · simpa [EatResult.after] using h1
        · simp [h2]; omega
        · simpa [EatResult.after] using h3
        · simp [EatResult.after, h4, passes]
    · refine ⟨[], ?_⟩
      simp [eatLoop_done p i _ hlt, passes]
      omega


theorem passes_counts (p : Philosopher) (consumed : List Bool) :
    meals (passes p consumed) = consumed.count true
    ∧ notices (passes p consumed) = consumed.count true
    ∧ requests (passes p consumed) = consumed.length
    ∧ answersTaken (passes p consumed) = consumed.length
    ∧ dones (passes p consumed) = 0 := by
  induction consumed with
  | nil => simp [passes, meals, notices, requests, answersTaken, dones]
  | cons ok c ih =>
    obtain ⟨h1, h2, h3, h4, h5⟩ := ih
    unfold meals notices requests answersTaken dones at *
    cases ok <;>
      simp [passes, eatGranted, eatDenied, List.countP_append, List.countP_cons,
        h1, h2, h3, h4, h5]

theorem eatLoop_retry (p : Philosopher) (answers : List Bool) :
    ∀ i : Nat,
      (i < rounds →
        (eatLoop p i answers).trace.head? = some (PhiloEvent.sendStart p.start eatReq))
      ∧ (∀ (ch : Nat) (e : PhiloEvent),
          [PhiloEvent.recvAnswer ch false, e] <:+: (eatLoop p i answers).trace →
          e = PhiloEvent.sendStart p.start eatReq) := by
  induction answers with
  | nil =>
    intro i
    by_cases hlt : i < rounds
    · simp [eatLoop, hlt, List.infix_cons_iff]
    · simp [eatLoop, hlt, List.infix_cons_iff]
  | cons ok answers ih =>
    intro i
    by_cases hlt : i < rounds
    · cases ok with
      | false =>
        obtain ⟨hh, hi⟩ := ih i
        rw [eatLoop_denied p i answers hlt]
        refine ⟨by simp [EatResult.after, eatDenied], ?_⟩
        intro ch e hin
        simp only [EatResult.after, eatDenied, List.cons_append, List.nil_append,
          List.infix_cons_iff] at hin
        rcases hin with hpre | hpre | hin
        · simp at hpre
        · have hpre2 := (List.cons_prefix_cons.mp hpre).2
          have hhead := hh hlt
          cases htr : (eatLoop p i answers).trace with
          | nil => rw [htr] at hhead; simp at hhead
          | cons x xs =>
            rw [htr] at hhead hpre2
            simp at hhead
            have := (List.cons_prefix_cons.mp hpre2).1
            rw [this, hhead]
        · exact hi ch e hin
      | true =>
        obtain ⟨_, hi⟩ := ih (i + 1)
        rw [eatLoop_granted p i answers hlt]
        refine ⟨by simp [EatResult.after, eatGranted], ?_⟩
        intro ch e hin
        simp only [EatResult.after, eatGranted, List.cons_append, List.nil_append,
          List.infix_cons_iff] at hin
        rcases hin with h | h | h | h | h | h | h | h | h | h
        all_goals first
          | exact hi ch e h
          | (exfalso; simp at h)
    · rw [eatLoop_done p i _ hlt]
      refine ⟨fun h => absurd h hlt, ?_⟩
      intro ch e hin
      simp [List.infix_cons_iff] at hin

/-- C10: agent round count. Against any sequence of answers that holds at least
3 true values, Philosopher.eat consumes the answers up to the third true one,
performs exactly 3 critical actions and sends exactly 3 finish notices, sends
exactly one eat request per answer consumed, does no more after a false
answer than send the next eat request, and then signals termination exactly
once, as its last action, and returns. -/
theorem eat_round_count (p : Philosopher) (answers : List Bool)
    (h : 3 ≤ answers.count true) :
    ∃ consumed : List Bool,
      answers = consumed ++ (eat p answers).rest
      ∧ consumed.count true = 3
      ∧ (eat p answers).returned = true
      ∧ (eat p answers).trace = passes p consumed ++ [PhiloEvent.wgDone]
      ∧ meals (eat p answers).trace = 3
      ∧ notices (eat p answers).trace = 3
      ∧ requests (eat p answers).trace = consumed.length
      ∧ answersTaken (eat p answers).trace = consumed.length
      ∧ dones (eat p answers).trace = 1
      ∧ (eat p answers).trace.getLast? = some PhiloEvent.wgDone
      ∧ (∀ (ch : Nat) (e : PhiloEvent),
          [PhiloEvent.recvAnswer ch false, e] <:+: (eat p answers).trace →
          e = PhiloEvent.sendStart p.start eatReq) := by
  obtain ⟨c, h1, h2, h3, h4⟩ := eatLoop_structure p answers 0 (by decide) (by simpa using h)
  obtain ⟨c1, c2, c3, c4, c5⟩ := passes_counts p c
  have hm : meals (passes p c ++ [PhiloEvent.wgDone]) = meals (passes p c) := by
    simp [meals, List.countP_append]
  have hn : notices (passes p c ++ [PhiloEvent.wgDone]) = notices (passes p c) := by
    simp [notices, List.countP_append]
  have hr : requests (passes p c ++ [PhiloEvent.wgDone]) = requests (passes p c) := by
    simp [requests, List.countP_append]
  have ha : answersTaken (passes p c ++ [PhiloEvent.wgDone])
      = answersTaken (passes p c) := by
    simp [answersTaken, List.countP_append]
  have hd : dones (passes p c ++ [PhiloEvent.wgDone]) = dones (passes p c) + 1 := by
    simp [dones, List.countP_append]
  have h2 : c.count true = 3 := by simpa using h2
  refine ⟨c, h1, h2, h3, h4, ?_, ?_, ?_, ?_, ?_, ?_, ?_⟩
  · unfold eat; rw [h4, hm, c1, h2]
  · unfold eat; rw [h4, hn, c2, h2]
  · unfold eat; rw [h4, hr, c3]
  · unfold eat; rw [h4, ha, c4]
  · unfold eat; rw [h4, hd, c5]
  · unfold eat; rw [h4]; simp
  · exact (eatLoop_retry p answers 0).2

/-- Witness for C10: philosopher 1 of the table, denied once and then granted
three times, with one answer left over. -/
theorem eat_round_count_witness :
    ∃ consumed : List Bool,
      [false, true, true, true, false]
        = consumed ++ (eat ⟨1, 0, 1, 2, ⟨0⟩, ⟨4⟩⟩ [false, true, true, true, false]).rest
      ∧ consumed.count true = 3
      ∧ (eat ⟨1, 0, 1, 2, ⟨0⟩, ⟨4⟩⟩ [false, true, true, true, false]).returned = true
      ∧ (eat ⟨1, 0, 1, 2, ⟨0⟩, ⟨4⟩⟩ [false, true, true, true, false]).trace
          = passes ⟨1, 0, 1, 2, ⟨0⟩, ⟨4⟩⟩ consumed ++ [PhiloEvent.wgDone]
      ∧ meals (eat ⟨1, 0, 1, 2, ⟨0⟩, ⟨4⟩⟩ [false, true, true, true, false]).trace = 3
      ∧ notices (eat ⟨1, 0, 1, 2, ⟨0⟩, ⟨4⟩⟩ [false, true, true, true, false]).trace = 3
      ∧ requests (eat ⟨1, 0, 1, 2, ⟨0⟩, ⟨4⟩⟩ [false, true, true, true, false]).trace
          = consumed.length
      ∧ answersTaken (eat ⟨1, 0, 1, 2, ⟨0⟩, ⟨4⟩⟩ [false, true, true, true, false]).trace
          = consumed.length
      ∧ dones (eat ⟨1, 0, 1, 2, ⟨0⟩, ⟨4⟩⟩ [false, true, true, true, false]).trace = 1
      ∧ (eat ⟨1, 0, 1, 2, ⟨0⟩, ⟨4⟩⟩ [false, true, true, true, false]).trace.getLast?
          = some PhiloEvent.wgDone
      ∧ (∀ (ch : Nat) (e : PhiloEvent),
          [PhiloEvent.recvAnswer ch false, e]
            <:+: (eat ⟨1, 0, 1, 2, ⟨0⟩, ⟨4⟩⟩ [false, true, true, true, false]).trace →
          e = PhiloEvent.sendStart (Philosopher.start ⟨1, 0, 1, 2, ⟨0⟩, ⟨4⟩⟩) eatReq) :=
  eat_round_count ⟨1, 0, 1, 2, ⟨0⟩, ⟨4⟩⟩ [false, true, true, true, false] (by decide)


/-- The chopsticks used by philosopher `i` in the interleaved program are those
of the table built by `setUpTable`. -/
theorem table_chopsticks : ∀ i : Fin numPhilos,
    (setUpTable.bind (fun philos => philos[i.val]?)).map
        (fun p => (p.left, p.right))
      = some (Chopstick.mk (leftOf i).val, Chopstick.mk (rightOf i).val) := by
  decide

theorem inv_init : Inv initSys := by
  refine ⟨rfl, ?_, ?_, ?_, ?_, ?_, ?_⟩
  · intro c i h; simp [initSys] at h
  · intro i h; simp [initSys, atTable] at h
  · simp [initSys, trueCount_emptyBook]
  · intro c h; simp [initSys] at h
  · intro c h; simp [initSys] at h
  · intro c ok h; simp [initSys] at h

theorem unblock_fin (pc : Fin numPhilos → PhiloPc) (j : Fin numPhilos) (next : PhiloPc) :
    unblock pc j.val next = Function.update pc j next := by
  funext k
  by_cases h : k = j
  · subst h; simp [unblock]
  · have : k.val ≠ j.val := fun e => h (Fin.ext e)
    simp [unblock, this, Function.update, h]

/-- A move of philosopher `i` alone keeps the invariant when the chopsticks it
holds afterwards fit its new program counter, the other philosophers hold no
more than before, and it does not enter the table region by itself. -/
theorem inv_of_philo_move (s t : Sys) (i : Fin numPhilos) (q : PhiloPc) (h : Inv s)
    (hpc : t.pc = Function.update s.pc i q)
    (hbook : t.book = s.book) (hhpc : t.hpc = s.hpc) (hcr : t.crashed = s.crashed)
    (hothers : ∀ c k, t.locked c = some k → k ≠ i → s.locked c = some k)
    (hmine : ∀ c, t.locked c = some i →
      (c = rightOf i ∧ hasRight q = true) ∨ (c = leftOf i ∧ hasLeft q = true))
    (htable : atTable q = true → atTable (s.pc i) = true) : Inv t := by
  obtain ⟨h1, h2, h3, h4, h5, h6, h7⟩ := h
  refine ⟨by rw [hcr]; exact h1, ?_, ?_, by rw [hbook]; exact h4, ?_,
    by rw [hhpc]; exact h6, by rw [hhpc, hbook]; exact h7⟩
  · intro c k hk
    by_cases hki : k = i
    · subst hki
      rw [hpc]; simpa using hmine c hk
    · rw [hpc]
      simpa [Function.update_apply, hki] using h2 c k (hothers c k hk hki)
  · intro k hk
    rw [hbook]
    rw [hpc] at hk
    by_cases hki : k = i
    · subst hki
      exact h3 k (htable (by simpa using hk))
    · exact h3 k (by simpa [Function.update_apply, hki] using hk)
  · intro c hc
    rw [hhpc] at hc
    obtain ⟨hlt, hat⟩ := h5 c hc
    refine ⟨hlt, ?_⟩
    rw [hpc]
    by_cases hki : (⟨c, hlt⟩ : Fin numPhilos) = i
    · rw [hki] at hat ⊢
      cases hq : atTable q with
      | false => simp [hq]
      | true => rw [htable hq] at hat; exact absurd hat (by decide)
    · simpa [Function.update_apply, hki] using hat

theorem inv_philoStep (s : Sys) (i : Fin numPhilos) (h : Inv s) : Inv (philoStep s i) := by
  have h2 := h.held
  unfold philoStep
  cases hpc : s.pc i with
  | sendStart => exact h
  | recvAnswer => exact h
  | sendFinish => exact h
  | done => exact h
  | lockRight =>
    simp only
    split
    · refine inv_of_philo_move s _ i PhiloPc.lockLeft h rfl rfl rfl rfl ?_ ?_ ?_
      · intro c k hk hki
        by_cases hc : c = rightOf i
        · rw [hc] at hk
          have hk2 : some i = some k := by simpa using hk
          exact absurd (Option.some.inj hk2).symm hki
        · simpa [Function.update_apply, hc] using hk
      · intro c hk
        by_cases hc : c = rightOf i
        · left; exact ⟨hc, rfl⟩
        · have hold : s.locked c = some i := by
            simpa [Function.update_apply, hc] using hk
          have := h2 c i hold
          simp [hpc, hasRight, hasLeft] at this
      · intro _; simp [hpc, atTable]
    · exact h
  | lockLeft =>
    simp only
    split
    · refine inv_of_philo_move s _ i PhiloPc.dine h rfl rfl rfl rfl ?_ ?_ ?_
      · intro c k hk hki
        by_cases hc : c = leftOf i
        · rw [hc] at hk
          have hk2 : some i = some k := by simpa using hk
          exact absurd (Option.some.inj hk2).symm hki
        · simpa [Function.update_apply, hc] using hk
      · intro c hk
        by_cases hc : c = leftOf i
        · right; exact ⟨hc, rfl⟩
        · have hold : s.locked c = some i := by
            simpa [Function.update_apply, hc] using hk
          have := h2 c i hold
          simp [hpc, hasRight, hasLeft] at this
          left; exact ⟨this, rfl⟩
      · intro _; simp [hpc, atTable]
    · exact h
  | dine =>
    refine inv_of_philo_move s _ i PhiloPc.unlockLeft h rfl rfl rfl rfl ?_ ?_ ?_
    · intro c k hk _; exact hk
    · intro c hk
      have := h2 c i hk
      simpa [hpc, hasRight, hasLeft] using this
    · intro _; simp [hpc, atTable]
  | unlockLeft =>
    refine inv_of_philo_move s _ i PhiloPc.unlockRight h rfl rfl rfl rfl ?_ ?_ ?_
    · intro c k hk _
      by_cases hc : c = leftOf i
        <;> simp [Function.update_apply, hc] at hk
      exact hk
    · intro c hk
      by_cases hc : c = leftOf i
        <;> simp [Function.update_apply, hc] at hk
      have := h2 c i hk
      simp [hpc, hasRight, hasLeft, hc] at this
      left; exact ⟨this, rfl⟩
    · intro _; simp [hpc, atTable]
  | unlockRight =>
    refine inv_of_philo_move s _ i PhiloPc.sendFinish h rfl rfl rfl rfl ?_ ?_ ?_
    · intro c k hk _
      by_cases hc : c = rightOf i
        <;> simp [Function.update_apply, hc] at hk
      exact hk
    · intro c hk
      by_cases hc : c = rightOf i
        <;> simp [Function.update_apply, hc] at hk
      have := h2 c i hk
      simp [hpc, hasRight, hasLeft, hc] at this
    · intro hq; simp [atTable] at hq
  | endRound =>
    refine inv_of_philo_move s _ i PhiloPc.loopTest h rfl rfl rfl rfl ?_ ?_ ?_
    · intro c k hk _; exact hk
    · intro c hk
      have := h2 c i hk
      simp [hpc, hasRight, hasLeft] at this
    · intro hq; simp [atTable] at hq
  | loopTest =>
    simp only
    split
    · refine inv_of_philo_move s _ i PhiloPc.sendStart h rfl rfl rfl rfl ?_ ?_ ?_
      · intro c k hk _; exact hk
      · intro c hk
        have := h2 c i hk
        simp [hpc, hasRight, hasLeft] at this
      · intro hq; simp [atTable] at hq
    · refine inv_of_philo_move s _ i PhiloPc.done h rfl rfl rfl rfl ?_ ?_ ?_
      · intro c k hk _; exact hk
      · intro c hk
        have := h2 c i hk
        simp [hpc, hasRight, hasLeft] at this
      · intro hq; simp [atTable] at hq


/-- A move in which the host hands philosopher `j`, which holds no chopstick,
over to program counter `q` keeps the first four parts of the invariant. -/
theorem inv_of_handover (s t : Sys) (j : Fin numPhilos) (q : PhiloPc) (h : Inv s)
    (hpc : t.pc = Function.update s.pc j q) (hlocked : t.locked = s.locked)
    (hbook : t.book = s.book) (hcr : t.crashed = s.crashed)
    (hnoR : hasRight (s.pc j) = false) (hnoL : hasLeft (s.pc j) = false)
    (htable : atTable q = true → s.book j = true)
    (hclear : ∀ c, t.hpc = HostPc.clearBook c →
      ∃ h : c < numPhilos, atTable (t.pc ⟨c, h⟩) = false)
    (hpolicy : ∀ c, t.hpc = HostPc.policy c → c < numPhilos)
    (hanswer : ∀ c ok, t.hpc = HostPc.answer c ok →
      ∃ h : c < numPhilos, (ok = true → t.book ⟨c, h⟩ = true)) : Inv t := by
  obtain ⟨h1, h2, h3, h4, _, _, _⟩ := h
  refine ⟨by rw [hcr]; exact h1, ?_, ?_, by rw [hbook]; exact h4, hclear, hpolicy, hanswer⟩
  · intro c k hk
    rw [hlocked] at hk
    have := h2 c k hk
    by_cases hkj : k = j
    · subst hkj
      simp [hnoR, hnoL] at this
    · rw [hpc]
      simpa [Function.update_apply, hkj] using this
  · intro k hk
    rw [hbook]
    rw [hpc] at hk
    by_cases hkj : k = j
    · subst hkj
      exact htable (by simpa using hk)
    · exact h3 k (by simpa [Function.update_apply, hkj] using hk)

theorem inv_hostMove (s : Sys) (pick : Nat) (h : Inv s) : Inv (hostMove s pick) := by
  unfold hostMove
  cases hh : s.hpc with
  | selectFinish =>
    simp only
    rcases selectRecv_ofFn (fun i => decide (s.pc i = PhiloPc.sendFinish)) pick with
      ⟨hsel, _⟩ | ⟨j, hj, hsel⟩
    · rw [hsel]
      simp only [Bool.false_eq_true, if_false]
      obtain ⟨h1, h2, h3, h4, _, _, _⟩ := h
      exact ⟨h1, h2, h3, h4, by intro c hc; simp at hc, by intro c hc; simp at hc,
        by intro c ok hc; simp at hc⟩
    · rw [hsel]
      simp only [if_true]
      have hj2 : s.pc j = PhiloPc.sendFinish := by simpa using hj
      refine inv_of_handover s _ j PhiloPc.endRound h (unblock_fin s.pc j _) rfl rfl rfl
        (by simp [hj2, hasRight]) (by simp [hj2, hasLeft]) (by simp [atTable]) ?_ ?_ ?_
      · intro c hc
        simp only [HostPc.clearBook.injEq] at hc
        subst hc
        refine ⟨j.isLt, ?_⟩
        simp [unblock, atTable]
      · intro c hc; simp at hc
      · intro c ok hc; simp at hc
  | clearBook c =>
    simp only
    obtain ⟨h1, h2, h3, h4, h5, _, _⟩ := h
    obtain ⟨hlt, hat⟩ := h5 c hh
    have hset : setBook s.book c false = some (Function.update s.book ⟨c, hlt⟩ false) :=
      setBook_fin s.book ⟨c, hlt⟩ false
    rw [hset]
    simp only
    refine ⟨h1, h2, ?_, le_trans (trueCount_clear_le _ _) h4, by intro c hc; simp at hc,
      by intro c hc; simp at hc, by intro c ok hc; simp at hc⟩
    intro k hk
    by_cases hkc : k = ⟨c, hlt⟩
    · subst hkc
      simp only at hk
      rw [hat] at hk
      exact absurd hk (by decide)
    · simpa [Function.update_apply, hkc] using h3 k hk
  | selectStart =>
    simp only
    rcases selectRecv_ofFn (fun i => decide (s.pc i = PhiloPc.sendStart)) pick with
      ⟨hsel, _⟩ | ⟨j, hj, hsel⟩
    · rw [hsel]
      simp only [Bool.false_eq_true, if_false]
      obtain ⟨h1, h2, h3, h4, _, _, _⟩ := h
      exact ⟨h1, h2, h3, h4, by intro c hc; simp at hc, by intro c hc; simp at hc,
        by intro c ok hc; simp at hc⟩
    · rw [hsel]
      simp only [if_true]
      have hj2 : s.pc j = PhiloPc.sendStart := by simpa using hj
      refine inv_of_handover s _ j PhiloPc.recvAnswer h (unblock_fin s.pc j _) rfl rfl rfl
        (by simp [hj2, hasRight]) (by simp [hj2, hasLeft]) (by simp [atTable]) ?_ ?_ ?_
      · intro c hc; simp at hc
      · intro c hc
        simp only [HostPc.policy.injEq] at hc
        subst hc
        exact j.isLt
      · intro c ok hc; simp at hc
  | policy c =>
    simp only
    obtain ⟨h1, h2, h3, h4, _, h6, _⟩ := h
    have hlt := h6 c hh
    have hset : setBook s.book c true = some (Function.update s.book ⟨c, hlt⟩ true) :=
      setBook_fin s.book ⟨c, hlt⟩ true
    by_cases ha : allowToEat s.book = true
    · rw [hset]
      simp only [ha, if_true]
      have hcount : trueCount s.book < 2 := by simpa [allowToEat_eq] using ha
      have hle := trueCount_set_le s.book ⟨c, hlt⟩
      refine ⟨h1, h2, ?_, (by show trueCount (Function.update s.book ⟨c, hlt⟩ true) ≤ 2; omega),
        by intro c hc; simp at hc, by intro c hc; simp at hc, ?_⟩
      · intro k hk
        by_cases hkc : k = ⟨c, hlt⟩
        · subst hkc; simp
        · simpa [Function.update_apply, hkc] using h3 k hk
      · intro c2 ok hc
        simp only [HostPc.answer.injEq] at hc
        obtain ⟨hc1, _⟩ := hc
        subst hc1
        exact ⟨hlt, fun _ => by simp⟩
    · simp only [ha, Bool.false_eq_true, if_false]
      refine ⟨h1, h2, h3, h4, by intro c hc; simp at hc, by intro c hc; simp at hc, ?_⟩
      intro c2 ok hc
      simp only [HostPc.answer.injEq] at hc
      obtain ⟨hc1, hc2⟩ := hc
      subst hc1
      exact ⟨hlt, fun hok => by rw [← hc2] at hok; exact absurd hok (by decide)⟩
  | answer c ok =>
    simp only
    obtain ⟨hlt, hbk⟩ := h.answering c ok hh
    simp only [hlt, dif_pos]
    split
    · rename_i hrecv
      refine inv_of_handover s _ ⟨c, hlt⟩ _ h rfl rfl rfl rfl
        (by simp [hrecv, hasRight]) (by simp [hrecv, hasLeft]) ?_ ?_ ?_ ?_
      · intro hq
        cases ok with
        | true => exact hbk rfl
        | false => simp [atTable] at hq
      · intro c hc; simp at hc
      · intro c hc; simp at hc
      · intro c ok hc; simp at hc
    · exact h

theorem inv_sysStep (s : Sys) (a : Sched) (h : Inv s) : Inv (sysStep s a) := by
  unfold sysStep
  split
  · exact h
  · cases a with
    | philo i => exact inv_philoStep s i h
    | host pick => exact inv_hostMove s pick h

theorem inv_sysRun (sched : List Sched) : ∀ s : Sys, Inv s → Inv (sysRun s sched) := by
  induction sched with
  | nil => intro s h; exact h
  | cons a rest ih =>
    intro s h
    exact ih (sysStep s a) (inv_sysStep s a h)


theorem three_true_le_count (book : Book) (a b c : Fin numPhilos)
    (hab : a ≠ b) (hac : a ≠ c) (hbc : b ≠ c)
    (ha : book a = true) (hb : book b = true) (hc : book c = true) :
    3 ≤ trueCount book := by
  have hsub : ({a, b, c} : Finset (Fin numPhilos))
      ⊆ Finset.univ.filter (fun i => book i = true) := by
    intro x hx
    simp only [Finset.mem_insert, Finset.mem_singleton] at hx
    rcases hx with h | h | h <;> simp [h, ha, hb, hc]
  have hcard : ({a, b, c} : Finset (Fin numPhilos)).card = 3 :=
    Finset.card_eq_three.mpr ⟨a, b, c, hab, hac, hbc, rfl⟩
  unfold trueCount
  calc 3 = ({a, b, c} : Finset (Fin numPhilos)).card := hcard.symm
    _ ≤ _ := Finset.card_le_card hsub

theorem hasRight_atTable : ∀ pc : PhiloPc, hasRight pc = true → atTable pc = true := by
  intro pc; cases pc <;> simp [hasRight, atTable]

theorem hasLeft_atTable : ∀ pc : PhiloPc, hasLeft pc = true → atTable pc = true := by
  intro pc; cases pc <;> simp [hasLeft, atTable]

theorem holder_atTable (s : Sys) (h : Inv s) (i c : Fin numPhilos) (hc : holds s i c) :
    atTable (s.pc i) = true := by
  rcases h.held c i hc with ⟨_, hr⟩ | ⟨_, hl⟩
  · exact hasRight_atTable _ hr
  · exact hasLeft_atTable _ hl

theorem not_three_atTable (s : Sys) (h : Inv s) (a b c : Fin numPhilos)
    (hab : a ≠ b) (hac : a ≠ c) (hbc : b ≠ c)
    (ha : atTable (s.pc a) = true) (hb : atTable (s.pc b) = true)
    (hc : atTable (s.pc c) = true) : False := by
  have := three_true_le_count s.book a b c hab hac hbc
    (h.booked a ha) (h.booked b hb) (h.booked c hc)
  have := h.cap
  omega

theorem rightOf_eq_leftOf : ∀ a b : Fin numPhilos, leftOf a = rightOf b → b = a + 1 := by
  decide

theorem rightOf_injective : ∀ a b : Fin numPhilos, rightOf a = rightOf b → a = b := by
  decide

theorem succ_distinct : ∀ a : Fin numPhilos, a ≠ a + 1 ∧ a ≠ a + 1 + 1 ∧ a + 1 ≠ a + 1 + 1 := by
  decide

/-- In a chain of two waits the first philosopher is at `p.left.Lock()` and waits
for its neighbour on the ring. -/
theorem waitsOn_chain (s : Sys) (h : Inv s) (a b d : Fin numPhilos)
    (hab : waitsOn s a b) (hbd : waitsOn s b d) :
    s.pc a = PhiloPc.lockLeft ∧ b = a + 1 := by
  obtain ⟨c, ⟨hac, _⟩, hbc⟩ := hab
  obtain ⟨c2, ⟨hb, _⟩, _⟩ := hbd
  have hheld := h.held c b hbc
  have hb2 : s.pc b = PhiloPc.lockLeft ∧ c = rightOf b := by
    rcases hb with ⟨hb, _⟩ | ⟨hb, _⟩
    · rw [hb] at hheld; simp [hasRight, hasLeft] at hheld
    · rw [hb] at hheld
      simp [hasRight, hasLeft] at hheld
      exact ⟨hb, hheld⟩
  rcases hac with ⟨ha, hc⟩ | ⟨ha, hc⟩
  · have : a = b := rightOf_injective a b (by rw [← hc, hb2.2])
    rw [this, hb2.1] at ha
    exact absurd ha (by decide)
  · exact ⟨ha, rightOf_eq_leftOf a b (by rw [← hc, hb2.2])⟩

theorem cycle_next (s : Sys) (a : Fin numPhilos)
    (hcyc : Relation.TransGen (waitsOn s) a a) :
    ∃ b, waitsOn s a b ∧ Relation.TransGen (waitsOn s) b b := by
  obtain ⟨b, hab, hba⟩ := Relation.TransGen.head'_iff.mp hcyc
  exact ⟨b, hab, Relation.TransGen.tail' hba hab⟩

theorem cycle_step (s : Sys) (h : Inv s) (a : Fin numPhilos)
    (hcyc : Relation.TransGen (waitsOn s) a a) :
    s.pc a = PhiloPc.lockLeft ∧ Relation.TransGen (waitsOn s) (a + 1) (a + 1) := by
  obtain ⟨b, hab, hb⟩ := cycle_next s a hcyc
  obtain ⟨d, hbd, _⟩ := cycle_next s b hb
  obtain ⟨hpc, hba⟩ := waitsOn_chain s h a b d hab hbd
  rw [hba] at hb
  exact ⟨hpc, hb⟩

theorem no_cycle (s : Sys) (h : Inv s) (a : Fin numPhilos) :
    ¬ Relation.TransGen (waitsOn s) a a := by
  intro hcyc
  obtain ⟨h0, hc1⟩ := cycle_step s h a hcyc
  obtain ⟨h1, hc2⟩ := cycle_step s h (a + 1) hc1
  obtain ⟨h2, _⟩ := cycle_step s h (a + 1 + 1) hc2
  obtain ⟨d1, d2, d3⟩ := succ_distinct a
  exact not_three_atTable s h a (a + 1) (a + 1 + 1) d1 d2 d3
    (by rw [h0]; rfl) (by rw [h1]; rfl) (by rw [h2]; rfl)

theorem not_all_stuck (s : Sys) (h : Inv s) : ¬ ∀ i, holdsOneWaitsOther s i := by
  intro hall
  have hat : ∀ i, atTable (s.pc i) = true := by
    intro i
    rcases hall i with ⟨hl, _, _⟩ | ⟨hr, _, _⟩
    · exact holder_atTable s h i _ hl
    · exact holder_atTable s h i _ hr
  exact not_three_atTable s h 0 1 2 (by decide) (by decide) (by decide)
    (hat 0) (hat 1) (hat 2)

theorem holders_le_two (s : Sys) (h : Inv s) :
    (Finset.univ.filter (fun i => ∃ c, s.locked c = some i)).card ≤ 2 := by
  have hsub : Finset.univ.filter (fun i => ∃ c, s.locked c = some i)
      ⊆ Finset.univ.filter (fun i => s.book i = true) := by
    intro i hi
    obtain ⟨c, hc⟩ := (Finset.mem_filter.mp hi).2
    exact Finset.mem_filter.mpr ⟨Finset.mem_univ _, h.booked i (holder_atTable s h i c hc)⟩
  exact le_trans (Finset.card_le_card hsub) h.cap

/-- C6: deadlock freedom. In the state reached under any finite schedule of the
five philosophers and the host from the start of the program, the program has
not stopped on an index out of range, the book has at most 2 true entries, at
most 2 philosophers hold a chopstick, it is not the case that every
philosopher holds exactly one chopstick and is blocked on its other one, and
no philosopher is on a cycle of philosophers each blocked on a chopstick that
the next one holds. -/
theorem deadlock_freedom (sched : List Sched) :
    (sysRun initSys sched).crashed = false
    ∧ trueCount (sysRun initSys sched).book ≤ 2
    ∧ (Finset.univ.filter (fun i => ∃ c, (sysRun initSys sched).locked c = some i)).card ≤ 2
    ∧ ¬ (∀ i, holdsOneWaitsOther (sysRun initSys sched) i)
    ∧ ¬ ∃ i, Relation.TransGen (waitsOn (sysRun initSys sched)) i i := by
  have h := inv_sysRun sched initSys inv_init
  refine ⟨h.sound, h.cap, holders_le_two _ h, not_all_stuck _ h, ?_⟩
  rintro ⟨i, hi⟩
  exact no_cycle _ h i hi


/-- Waiting does occur: after philosophers 0 and 1 have raised their eat
requests, the host has admitted philosophers 0 and 1,
philosopher 0 has taken its right chopstick and philosopher 1 has taken its
right chopstick (the left one of philosopher 0), philosopher 0 waits on
philosopher 1. -/
theorem waiting_is_reachable :
    waitsOn (sysRun initSys
      [Sched.philo 0, Sched.philo 1,
       Sched.host 0, Sched.host 0, Sched.host 0, Sched.host 0,
       Sched.host 0, Sched.host 0, Sched.host 0, Sched.host 0,
       Sched.philo 0, Sched.philo 1]) 0 1 := by
  refine ⟨0, ⟨Or.inr ⟨?_, ?_⟩, ?_⟩, ?_⟩
  · decide
  · decide
  · decide
  · unfold holds; decide


end Philo
